import Mathlib

/-!
# Verification of the Argus ingestion-and-aggregation engine

A shallow embedding, in Lean 4, of the core data structures and
algorithms of the Argus log viewer (Go), together with proofs about
them:

* the fixed-capacity ring buffer for log history
  (`internal/aggregate/aggregator.go`: `RingBuffer` with `Push`,
  `GetAll`, `GetLast`, `Count`, `Clear`);
* the journald priority-to-severity table
  (`internal/ingest/journal.go`: `priorityToLevel` and the
  priority-field handling in `parseJournalEntry`);
* the keyword-based severity detector of the file ingestor
  (`internal/ingest`: `detectLevel`);
* the aggregator's source registry (`AddSource` / `RemoveSource`) and
  its non-blocking broadcast to subscribers.

Go machine integers are modelled as `Nat` (all quantities involved —
sizes, counts, cursors — are nonnegative and tiny compared to 2^63, and
Go's `%` agrees with `Nat.mod` on nonnegative operands); the requested
buffer size and the argument of `GetLast`, which the Go code checks for
nonpositivity, are modelled as `Int`.  Entries are an arbitrary type
`α`; Go's zero value for an entry is an explicit parameter `d`.
-/

namespace Argus

/-- `RingBuffer` from `aggregator.go`: a fixed-size circular buffer.
`entries` is the backing slice (length = `size`), `size` the maximum
capacity, `count` the current number of live entries, `writeAt` the
next write position. -/
structure RingBuffer (α : Type) where
  entries : List α
  size : Nat
  count : Nat
  writeAt : Nat
  deriving Repr, DecidableEq

/-- `NewRingBuffer` from `aggregator.go`: creates a ring buffer with the
specified capacity; a nonpositive requested size falls back to the
default capacity 1000.  `d` is Go's zero value for an entry (the
backing slice is allocated zeroed with `make`). -/
def NewRingBuffer {α : Type} (d : α) (size : Int) : RingBuffer α :=
  let sz : Nat := if size ≤ 0 then 1000 else size.toNat
  { entries := List.replicate sz d
    size := sz
    count := 0
    writeAt := 0 }

/-- `Push` from `aggregator.go`: write at the current position, advance
the cursor with wrap-around, and grow `count` up to `size`. -/
def RingBuffer.Push {α : Type} (rb : RingBuffer α) (entry : α) : RingBuffer α :=
  { entries := rb.entries.set rb.writeAt entry
    size := rb.size
    writeAt := (rb.writeAt + 1) % rb.size
    count := if rb.count < rb.size then rb.count + 1 else rb.count }

/-- `GetAll` from `aggregator.go`: all live entries in chronological
order.  When the buffer is not yet full the live entries are the prefix
of length `count`; when it is full, the oldest entry sits at `writeAt`
and the result is the wrap-around concatenation. -/
def RingBuffer.GetAll {α : Type} (rb : RingBuffer α) : List α :=
  if rb.count = 0 then []
  else if rb.count < rb.size then rb.entries.take rb.count
  else rb.entries.drop rb.writeAt ++ rb.entries.take rb.writeAt

/-- `GetLast` from `aggregator.go`: the last `n` live entries in
chronological order.  `n` is clamped to `count`; the block starts at
`(writeAt - n + size) % size` (written here as `(writeAt + size - n) % size`,
identical on Go's nonnegative operands) and may wrap around. -/
def RingBuffer.GetLast {α : Type} (rb : RingBuffer α) (n : Int) : List α :=
  if n ≤ 0 ∨ rb.count = 0 then []
  else
    let m : Nat := min n.toNat rb.count
    let start : Nat := (rb.writeAt + rb.size - m) % rb.size
    if start + m ≤ rb.size then
      (rb.entries.drop start).take m
    else
      let firstPart := rb.entries.drop start
      firstPart ++ rb.entries.take (m - firstPart.length)

/-- `Count` from `aggregator.go`. -/
def RingBuffer.Count {α : Type} (rb : RingBuffer α) : Nat := rb.count

/-- `Clear` from `aggregator.go`: resets `count` and `writeAt` to zero;
the backing slice is kept (no deallocation). -/
def RingBuffer.Clear {α : Type} (rb : RingBuffer α) : RingBuffer α :=
  { rb with count := 0, writeAt := 0 }

/-- A sequence of `Push` calls, first element pushed first. -/
def RingBuffer.pushAll {α : Type} (rb : RingBuffer α) (xs : List α) : RingBuffer α :=
  xs.foldl RingBuffer.Push rb

/-- The structural invariant of a reachable ring buffer: the backing
slice has length `size`, the capacity is positive, `count` never
exceeds the capacity, the cursor stays in range, and while the buffer
is not yet full the cursor equals `count`. -/
def RingBuffer.Inv {α : Type} (rb : RingBuffer α) : Prop :=
  rb.entries.length = rb.size ∧ 0 < rb.size ∧ rb.count ≤ rb.size ∧
    rb.writeAt < rb.size ∧ (rb.count < rb.size → rb.writeAt = rb.count)

namespace RingBuffer

variable {α : Type}

@[simp] lemma push_size (rb : RingBuffer α) (x : α) : (rb.Push x).size = rb.size := rfl

@[simp] lemma push_entries (rb : RingBuffer α) (x : α) :
    (rb.Push x).entries = rb.entries.set rb.writeAt x := rfl

@[simp] lemma push_writeAt (rb : RingBuffer α) (x : α) :
    (rb.Push x).writeAt = (rb.writeAt + 1) % rb.size := rfl

@[simp] lemma push_count (rb : RingBuffer α) (x : α) :
    (rb.Push x).count = if rb.count < rb.size then rb.count + 1 else rb.count := rfl

@[simp] lemma clear_fields (rb : RingBuffer α) :
    (rb.Clear.entries = rb.entries ∧ rb.Clear.size = rb.size) ∧
      rb.Clear.count = 0 ∧ rb.Clear.writeAt = 0 :=
  ⟨⟨rfl, rfl⟩, rfl, rfl⟩

@[simp] lemma pushAll_nil (rb : RingBuffer α) : rb.pushAll [] = rb := rfl

lemma pushAll_append (rb : RingBuffer α) (xs ys : List α) :
    rb.pushAll (xs ++ ys) = (rb.pushAll xs).pushAll ys :=
  List.foldl_append _ _ xs ys

lemma pushAll_singleton (rb : RingBuffer α) (x : α) : rb.pushAll [x] = rb.Push x := rfl

lemma getAll_eq_take (rb : RingBuffer α) (h : rb.count < rb.size) :
    rb.GetAll = rb.entries.take rb.count := by
  by_cases h0 : rb.count = 0
  · simp [GetAll, h0]
  · simp [GetAll, h0, h]

lemma getAll_full (rb : RingBuffer α) (h : rb.count = rb.size) (hs : 0 < rb.size) :
    rb.GetAll = rb.entries.drop rb.writeAt ++ rb.entries.take rb.writeAt := by
  have h0 : rb.count ≠ 0 := by omega
  have h1 : ¬ rb.count < rb.size := by omega
  simp [GetAll, h0, h1]

/-- Setting index `n` and taking `n + 1` elements yields the first `n`
elements followed by the new value. -/
lemma take_succ_set (l : List α) (n : Nat) (x : α) (hn : n < l.length) :
    (l.set n x).take (n + 1) = l.take n ++ [x] := by
  rw [List.set_eq_take_cons_drop x hn]
  have hlt : (l.take n).length = n := by simp [Nat.le_of_lt hn]
  rw [show n + 1 = (l.take n).length + 1 by rw [hlt]]
  rw [List.take_append]
  simp

/-- Setting the final index rewrites the last element. -/
lemma set_last_eq (l : List α) (n : Nat) (x : α) (h : n + 1 = l.length) :
    l.set n x = l.take n ++ [x] := by
  rw [List.set_eq_take_cons_drop x (by omega)]
  rw [h, List.drop_length]

/-- One `Push` step, seen through `GetAll`: on a non-full buffer the new
entry is appended; on a full buffer the oldest entry is dropped and the
new one appended. -/
lemma getAll_push (rb : RingBuffer α) (hinv : rb.Inv) (x : α) :
    (rb.Push x).GetAll =
      if rb.count < rb.size then rb.GetAll ++ [x] else rb.GetAll.drop 1 ++ [x] := by
  obtain ⟨hl, hs, hc, hw, hcw⟩ := hinv
  by_cases hlt : rb.count < rb.size
  · have hwc : rb.writeAt = rb.count := hcw hlt
    rw [if_pos hlt]
    by_cases h2 : rb.count + 1 < rb.size
    · rw [getAll_eq_take _ (by simp [hlt]; omega)]
      rw [getAll_eq_take _ hlt]
      simp only [push_entries, push_count, if_pos hlt, hwc]
      exact take_succ_set _ _ _ (by omega)
    · have hcs : rb.count + 1 = rb.size := by omega
      have hne : (rb.Push x).count ≠ 0 := by simp [hlt]
      have hnlt : ¬ (rb.Push x).count < (rb.Push x).size := by simp [hlt]; omega
      rw [getAll_full _ (by simp [hlt]; omega) (by simpa using hs)]
      rw [getAll_eq_take _ hlt]
      simp only [push_entries, push_writeAt, push_size, hwc]
      have hmod : (rb.count + 1) % rb.size = 0 := by
        rw [hcs, Nat.mod_self]
      rw [hmod]
      simp only [List.drop_zero, List.take_zero, List.append_nil]
      exact set_last_eq _ _ _ (by omega)
  · have hcs : rb.count = rb.size := by omega
    rw [if_neg hlt]
    rw [getAll_full _ hcs hs]
    have hlen' : (rb.entries.set rb.writeAt x).length = rb.size := by simp [hl]
    have hfull' : (rb.Push x).count = (rb.Push x).size := by simp [hlt, hcs]
    rw [getAll_full _ hfull' (by simpa using hs)]
    simp only [push_entries, push_writeAt, push_size]
    by_cases hw2 : rb.writeAt + 1 < rb.size
    · have hmod : (rb.writeAt + 1) % rb.size = rb.writeAt + 1 := Nat.mod_eq_of_lt hw2
      rw [hmod]
      have hdropset : (rb.entries.set rb.writeAt x).drop (rb.writeAt + 1) =
          rb.entries.drop (rb.writeAt + 1) := by
        rw [List.drop_set, if_pos (by omega)]
      have htakeset : (rb.entries.set rb.writeAt x).take (rb.writeAt + 1) =
          rb.entries.take rb.writeAt ++ [x] :=
        take_succ_set _ _ _ (by omega)
      rw [hdropset, htakeset]
      have hne : 1 ≤ (rb.entries.drop rb.writeAt).length := by
        simp [hl]; omega
      rw [List.drop_append_of_le_length hne, List.drop_drop]
      simp
    · have hws : rb.writeAt + 1 = rb.size := by omega
      have hmod : (rb.writeAt + 1) % rb.size = 0 := by rw [hws, Nat.mod_self]
      rw [hmod]
      simp only [List.drop_zero, List.take_zero, List.append_nil]
      have hset : rb.entries.set rb.writeAt x = rb.entries.take rb.writeAt ++ [x] :=
        set_last_eq _ _ _ (by omega)
      rw [hset]
      have hne : 1 ≤ (rb.entries.drop rb.writeAt).length := by
        simp [hl]; omega
      rw [List.drop_append_of_le_length hne, List.drop_drop]
      have : rb.entries.drop (rb.writeAt + 1) = [] := by
        apply List.drop_eq_nil_of_le; omega
      rw [this]
      simp

/-- Characterization of every observable of a buffer obtained by
pushing the sequence `xs` into an empty-start state (fresh construction
or `Clear`): the capacity and backing length are preserved, `count`
is `min |xs| size`, the cursor is `|xs| % size`, and `GetAll` is the
suffix of `xs` that fits in the capacity. -/
lemma pushAll_spec (rb : RingBuffer α) (h0 : rb.count = 0) (hw0 : rb.writeAt = 0)
    (hl : rb.entries.length = rb.size) (hs : 0 < rb.size) (xs : List α) :
    (rb.pushAll xs).size = rb.size ∧
    (rb.pushAll xs).entries.length = rb.size ∧
    (rb.pushAll xs).count = min xs.length rb.size ∧
    (rb.pushAll xs).writeAt = xs.length % rb.size ∧
    (rb.pushAll xs).GetAll = xs.drop (xs.length - rb.size) := by
  induction xs using List.reverseRecOn with
  | nil =>
    refine ⟨rfl, hl, by simpa using h0, by simpa using hw0, ?_⟩
    simp [GetAll, h0]
  | append_singleton xs x IH =>
    obtain ⟨hsz, hel, hcn, hwr, hga⟩ := IH
    rw [pushAll_append, pushAll_singleton]
    set s := rb.pushAll xs with hsdef
    have hInv : s.Inv := by
      refine ⟨hel.trans hsz.symm, Nat.lt_of_lt_of_eq hs hsz.symm, ?_, ?_, ?_⟩
      · omega
      · rw [hwr, hsz]; exact Nat.mod_lt _ hs
      · intro hlt
        rw [hsz] at hlt
        have hxs : xs.length < rb.size := by omega
        rw [hwr, hcn, Nat.mod_eq_of_lt hxs]
        omega
    refine ⟨by simp [hsz], by simp [hel], ?_, ?_, ?_⟩
    · rcases Nat.lt_or_ge xs.length rb.size with h | h
      · have h1 : min xs.length rb.size = xs.length := Nat.min_eq_left (by omega)
        have h2 : min (xs.length + 1) rb.size = xs.length + 1 := Nat.min_eq_left (by omega)
        simp only [push_count, hcn, hsz, List.length_append, List.length_singleton, h1, h2]
        rw [if_pos (by omega)]
      · have h1 : min xs.length rb.size = rb.size := Nat.min_eq_right h
        have h2 : min (xs.length + 1) rb.size = rb.size := Nat.min_eq_right (by omega)
        simp only [push_count, hcn, hsz, List.length_append, List.length_singleton, h1, h2]
        rw [if_neg (by omega)]
    · simp only [push_writeAt, hwr, hsz, Nat.mod_add_mod, List.length_append,
        List.length_singleton]
    · rw [getAll_push s hInv x]
      rcases Nat.lt_or_ge xs.length rb.size with h | h
      · have hclt : s.count < s.size := by rw [hcn, hsz]; omega
        rw [if_pos hclt, hga]
        have h1 : xs.length - rb.size = 0 := by omega
        have h2 : (xs ++ [x]).length - rb.size = 0 := by
          simp only [List.length_append, List.length_singleton]; omega
        rw [h1, h2, List.drop_zero, List.drop_zero]
      · have hclt : ¬ s.count < s.size := by rw [hcn, hsz]; omega
        rw [if_neg hclt, hga, List.drop_drop]
        have h2 : (xs ++ [x]).length - rb.size = xs.length - rb.size + 1 := by
          simp only [List.length_append, List.length_singleton]; omega
        rw [h2]
        rw [List.drop_append_of_le_length (by omega)]

/-- The structural invariant holds after any sequence of pushes from an
empty-start state. -/
lemma pushAll_inv (rb : RingBuffer α) (h0 : rb.count = 0) (hw0 : rb.writeAt = 0)
    (hl : rb.entries.length = rb.size) (hs : 0 < rb.size) (xs : List α) :
    (rb.pushAll xs).Inv := by
  obtain ⟨hsz, hel, hcn, hwr, _⟩ := pushAll_spec rb h0 hw0 hl hs xs
  refine ⟨hel.trans hsz.symm, Nat.lt_of_lt_of_eq hs hsz.symm, ?_, ?_, ?_⟩
  · omega
  · rw [hwr, hsz]; exact Nat.mod_lt _ hs
  · intro hlt
    rw [hsz] at hlt
    have hxs : xs.length < rb.size := by omega
    rw [hwr, hcn, Nat.mod_eq_of_lt hxs]
    omega

/-- `GetAll` has exactly `count` elements on any invariant-satisfying
buffer. -/
lemma length_getAll (rb : RingBuffer α) (hinv : rb.Inv) :
    rb.GetAll.length = rb.count := by
  obtain ⟨hl, hs, hc, hw, _⟩ := hinv
  by_cases hlt : rb.count < rb.size
  · rw [getAll_eq_take _ hlt]
    simp [hl]; omega
  · have hcs : rb.count = rb.size := by omega
    rw [getAll_full _ hcs hs]
    simp [hl]; omega

lemma getLast_body (rb : RingBuffer α) (n : Int) (hn : ¬(n ≤ 0 ∨ rb.count = 0)) :
    rb.GetLast n =
      (if (rb.writeAt + rb.size - min n.toNat rb.count) % rb.size + min n.toNat rb.count
            ≤ rb.size
       then (rb.entries.drop
              ((rb.writeAt + rb.size - min n.toNat rb.count) % rb.size)).take
              (min n.toNat rb.count)
       else rb.entries.drop ((rb.writeAt + rb.size - min n.toNat rb.count) % rb.size) ++
            rb.entries.take (min n.toNat rb.count -
              (rb.entries.drop
                ((rb.writeAt + rb.size - min n.toNat rb.count) % rb.size)).length)) := by
  simp only [GetLast, if_neg hn]

/-- `GetLast n` on any invariant-satisfying buffer is the suffix of
`GetAll` of length `min n count` (empty for `n ≤ 0`). -/
lemma getLast_eq_drop_getAll (rb : RingBuffer α) (hinv : rb.Inv) (n : Int) :
    rb.GetLast n = rb.GetAll.drop (rb.count - n.toNat) := by
  have hlenAll := length_getAll rb hinv
  obtain ⟨hl, hs, hc, hw, hcw⟩ := hinv
  by_cases hn : n ≤ 0 ∨ rb.count = 0
  · rcases hn with hn | hn
    · simp only [GetLast, if_pos (Or.inl hn)]
      have ht : n.toNat = 0 := by omega
      symm
      apply List.drop_eq_nil_of_le
      omega
    · have : rb.GetAll = [] := by simp [GetAll, hn]
      simp [GetLast, hn, this]
  · rw [getLast_body rb n hn]
    push_neg at hn
    obtain ⟨hn0, hc0⟩ := hn
    generalize hm : min n.toNat rb.count = m
    have hm1 : 1 ≤ m := by omega
    have hm2 : m ≤ rb.count := by omega
    have hsub : rb.count - n.toNat = rb.count - m := by omega
    rw [hsub]
    by_cases hlt : rb.count < rb.size
    · have hwc : rb.writeAt = rb.count := hcw hlt
      have hstart : (rb.writeAt + rb.size - m) % rb.size = rb.count - m := by
        rw [hwc]
        have he : rb.count + rb.size - m = (rb.count - m) + rb.size := by omega
        rw [he, Nat.add_mod_right]
        exact Nat.mod_eq_of_lt (by omega)
      rw [hstart, if_pos (by omega)]
      rw [getAll_eq_take _ hlt, List.drop_take]
      have : rb.count - (rb.count - m) = m := by omega
      rw [this]
    · have hful : rb.count = rb.size := by omega
      rw [getAll_full _ hful hs]
      have hldrop : (rb.entries.drop rb.writeAt).length = rb.size - rb.writeAt := by
        simp [hl]
      by_cases hmw : m ≤ rb.writeAt
      · have hstart : (rb.writeAt + rb.size - m) % rb.size = rb.writeAt - m := by
          have he : rb.writeAt + rb.size - m = (rb.writeAt - m) + rb.size := by omega
          rw [he, Nat.add_mod_right]
          exact Nat.mod_eq_of_lt (by omega)
        rw [hstart, if_pos (by omega)]
        have he : rb.size - m = (rb.entries.drop rb.writeAt).length + (rb.writeAt - m) := by
          rw [hldrop]; omega
        rw [hful, he, List.drop_append, List.drop_take]
        have : rb.writeAt - (rb.writeAt - m) = m := by omega
        rw [this]
      · by_cases hw0 : rb.writeAt = 0
        · have hstart : (rb.writeAt + rb.size - m) % rb.size = rb.size - m := by
            rw [hw0]
            simp only [Nat.zero_add]
            exact Nat.mod_eq_of_lt (by omega)
          rw [hstart, if_pos (by omega), hw0]
          simp only [List.drop_zero, List.take_zero, List.append_nil, hful]
          apply List.take_of_length_le
          simp only [List.length_drop, hl]
          omega
        · have hstart : (rb.writeAt + rb.size - m) % rb.size = rb.writeAt + rb.size - m := by
            exact Nat.mod_eq_of_lt (by omega)
          rw [hstart, if_neg (by omega)]
          have hlen2 : (rb.entries.drop (rb.writeAt + rb.size - m)).length = m - rb.writeAt := by
            simp [hl]; omega
          rw [hlen2]
          have hmm : m - (m - rb.writeAt) = rb.writeAt := by omega
          rw [hmm, hful]
          rw [List.drop_append_of_le_length (by rw [hldrop]; omega)]
          rw [List.drop_drop]
          have : rb.writeAt + (rb.size - m) = rb.writeAt + rb.size - m := by omega
          rw [this]

lemma new_size (d : α) (s : Int) :
    (NewRingBuffer d s).size = if s ≤ 0 then 1000 else s.toNat := rfl

@[simp] lemma new_count (d : α) (s : Int) : (NewRingBuffer d s).count = 0 := rfl

@[simp] lemma new_writeAt (d : α) (s : Int) : (NewRingBuffer d s).writeAt = 0 := rfl

lemma new_entries_length (d : α) (s : Int) :
    (NewRingBuffer d s).entries.length = (NewRingBuffer d s).size := by
  simp [NewRingBuffer]

lemma new_size_pos (d : α) (s : Int) : 0 < (NewRingBuffer d s).size := by
  rw [new_size]; split <;> omega

lemma new_size_natCast (d : α) (C : Nat) (hC : 0 < C) :
    (NewRingBuffer d (C : Int)).size = C := by
  rw [new_size]; split <;> omega

/-- `Push` preserves the structural invariant. -/
lemma inv_push (rb : RingBuffer α) (h : rb.Inv) (x : α) : (rb.Push x).Inv := by
  obtain ⟨hl, hs, hc, hw, hcw⟩ := h
  refine ⟨by simp [hl], by simpa using hs, ?_, ?_, ?_⟩
  · simp only [push_count, push_size]; split <;> omega
  · simp only [push_writeAt, push_size]; exact Nat.mod_lt _ hs
  · intro h2
    simp only [push_count, push_writeAt, push_size] at h2 ⊢
    by_cases hlt : rb.count < rb.size
    · rw [if_pos hlt] at h2 ⊢
      rw [hcw hlt, Nat.mod_eq_of_lt h2]
    · rw [if_neg hlt] at h2; omega

/-- `Clear` preserves the structural invariant. -/
lemma inv_clear (rb : RingBuffer α) (h : rb.Inv) : rb.Clear.Inv := by
  obtain ⟨hl, hs, _, _, _⟩ := h
  exact ⟨hl, hs, Nat.zero_le _, hs, fun _ => rfl⟩

/-- A freshly constructed buffer satisfies the structural invariant. -/
lemma inv_new (d : α) (s : Int) : (NewRingBuffer d s).Inv :=
  ⟨new_entries_length d s, new_size_pos d s, Nat.zero_le _, new_size_pos d s,
    fun _ => rfl⟩

/-- On a full invariant-satisfying buffer, the logically-oldest live
entry (the head of `GetAll`) is the one stored at the write cursor. -/
lemma getAll_head_full (rb : RingBuffer α) (hinv : rb.Inv) (hful : rb.count = rb.size) :
    rb.GetAll.head? = rb.entries[rb.writeAt]? := by
  obtain ⟨hl, hs, _, hw, _⟩ := hinv
  rw [getAll_full _ hful hs]
  rw [List.head?_append, List.head?_drop]
  have hne : rb.entries[rb.writeAt]? ≠ none := by
    rw [ne_eq, List.getElem?_eq_none_iff]
    omega
  cases hval : rb.entries[rb.writeAt]? with
  | none => exact absurd hval hne
  | some v => rfl

end RingBuffer

/-- An externally observable operation on the ring buffer: a `Push` of
an entry, or a `Clear`. -/
inductive RBOp (α : Type) where
  | push : α → RBOp α
  | clear : RBOp α
  deriving Repr, DecidableEq

/-- Apply one operation. -/
def RingBuffer.applyOp {α : Type} (rb : RingBuffer α) : RBOp α → RingBuffer α
  | .push x => rb.Push x
  | .clear => rb.Clear

/-- Apply a sequence of operations, first operation first. -/
def RingBuffer.applyOps {α : Type} (rb : RingBuffer α) (ops : List (RBOp α)) : RingBuffer α :=
  ops.foldl RingBuffer.applyOp rb

namespace RingBuffer

variable {α : Type}

/-- The structural invariant holds after any sequence of `Push`/`Clear`
operations. -/
lemma inv_applyOps (rb : RingBuffer α) (h : rb.Inv) (ops : List (RBOp α)) :
    (rb.applyOps ops).Inv := by
  induction ops generalizing rb with
  | nil => exact h
  | cons op ops IH =>
    cases op with
    | push x => exact IH _ (inv_push rb h x)
    | clear => exact IH _ (inv_clear rb h)

/-- The capacity never changes across `Push`/`Clear` operations. -/
lemma size_applyOps (rb : RingBuffer α) (ops : List (RBOp α)) :
    (rb.applyOps ops).size = rb.size := by
  induction ops generalizing rb with
  | nil => rfl
  | cons op ops IH =>
    cases op with
    | push x => exact (IH (rb.Push x)).trans rfl
    | clear => exact (IH rb.Clear).trans rfl

end RingBuffer

example : ((NewRingBuffer (0 : Nat) 3).pushAll [1, 2, 3, 4, 5]).GetAll = [3, 4, 5] := by decide
example : ((NewRingBuffer (0 : Nat) 10).pushAll [0, 1, 2, 3, 4, 5, 6]).GetLast 3 = [4, 5, 6] := by decide
example : ((NewRingBuffer (0 : Nat) 3).pushAll [1, 2]).GetAll = [1, 2] := by decide
example : (NewRingBuffer (0 : Nat) (-7)).size = 1000 := by decide
example : ((NewRingBuffer (0 : Nat) 3).pushAll [1, 2, 3, 4, 5]).GetLast 2 = [4, 5] := by decide
example : ((NewRingBuffer (0 : Nat) 3).pushAll [1, 2, 3, 4]).GetLast 3 = [2, 3, 4] := by decide

/-- Claim C2: for every capacity `C > 0` and every sequence `xs` of `N`
pushed events, if `N ≤ C` then `GetAll` returns exactly the `N` pushed
events in push order (and `Count` is `N`); if `N > C` then `Count`
returns `C` and `GetAll` returns exactly the last `C` pushed events in
push order, oldest surviving event first. -/
theorem ringBuffer_getAll_push_order {α : Type} (d : α) (C : Nat) (hC : 0 < C)
    (xs : List α) :
    (xs.length ≤ C →
      ((NewRingBuffer d (C : Int)).pushAll xs).Count = xs.length ∧
      ((NewRingBuffer d (C : Int)).pushAll xs).GetAll = xs) ∧
    (C < xs.length →
      ((NewRingBuffer d (C : Int)).pushAll xs).Count = C ∧
      ((NewRingBuffer d (C : Int)).pushAll xs).GetAll = xs.drop (xs.length - C)) := by
  have hsz := RingBuffer.new_size_natCast d C hC
  obtain ⟨_, _, hcn, _, hga⟩ :=
    RingBuffer.pushAll_spec (NewRingBuffer d (C : Int)) rfl rfl
      (RingBuffer.new_entries_length d _) (RingBuffer.new_size_pos d _) xs
  rw [hsz] at hcn hga
  constructor
  · intro hle
    refine ⟨?_, ?_⟩
    · rw [RingBuffer.Count, hcn]; omega
    · rw [hga]
      have : xs.length - C = 0 := by omega
      rw [this, List.drop_zero]
  · intro hgt
    refine ⟨?_, hga⟩
    rw [RingBuffer.Count, hcn]; omega

theorem ringBuffer_getAll_push_order_witness :
    ((5 : Nat) ≤ 5 →
      ((NewRingBuffer (0 : Nat) ((5 : Nat) : Int)).pushAll [1, 2, 3, 4, 5]).Count = 5 ∧
      ((NewRingBuffer (0 : Nat) ((5 : Nat) : Int)).pushAll [1, 2, 3, 4, 5]).GetAll
        = [1, 2, 3, 4, 5]) ∧
    ((3 : Nat) < 5 →
      ((NewRingBuffer (0 : Nat) ((3 : Nat) : Int)).pushAll [1, 2, 3, 4, 5]).Count = 3 ∧
      ((NewRingBuffer (0 : Nat) ((3 : Nat) : Int)).pushAll [1, 2, 3, 4, 5]).GetAll
        = [1, 2, 3, 4, 5].drop (5 - 3)) := by
  constructor
  · intro h
    exact (ringBuffer_getAll_push_order (0 : Nat) 5 (by decide) [1, 2, 3, 4, 5]).1 (by decide)
  · intro h
    exact (ringBuffer_getAll_push_order (0 : Nat) 3 (by decide) [1, 2, 3, 4, 5]).2 (by decide)

/-- Claim C3: on every reachable buffer state (capacity `C > 0`, any
push sequence `xs`), `GetLast k` returns the last `min k (Count)`
events in chronological (push) order; `GetLast 0` and `GetLast` on an
empty buffer (`Count = 0`) return an empty result. -/
theorem ringBuffer_getLast_spec {α : Type} (d : α) (C : Nat) (hC : 0 < C)
    (xs : List α) (k : Int) :
    ((NewRingBuffer d (C : Int)).pushAll xs).GetLast k
      = xs.drop (xs.length -
          min k.toNat ((NewRingBuffer d (C : Int)).pushAll xs).Count) ∧
    (((NewRingBuffer d (C : Int)).pushAll xs).GetLast k).length
      = min k.toNat ((NewRingBuffer d (C : Int)).pushAll xs).Count ∧
    ((NewRingBuffer d (C : Int)).pushAll xs).GetLast 0 = [] ∧
    (((NewRingBuffer d (C : Int)).pushAll xs).Count = 0 →
      ((NewRingBuffer d (C : Int)).pushAll xs).GetLast k = []) := by
  have hsz := RingBuffer.new_size_natCast d C hC
  have hInv := RingBuffer.pushAll_inv (NewRingBuffer d (C : Int)) rfl rfl
    (RingBuffer.new_entries_length d _) (RingBuffer.new_size_pos d _) xs
  obtain ⟨_, _, hcn, _, hga⟩ :=
    RingBuffer.pushAll_spec (NewRingBuffer d (C : Int)) rfl rfl
      (RingBuffer.new_entries_length d _) (RingBuffer.new_size_pos d _) xs
  rw [hsz] at hcn hga
  have hmain :
      ((NewRingBuffer d (C : Int)).pushAll xs).GetLast k
        = xs.drop (xs.length -
            min k.toNat ((NewRingBuffer d (C : Int)).pushAll xs).Count) := by
    rw [RingBuffer.getLast_eq_drop_getAll _ hInv k, hga, List.drop_drop,
      RingBuffer.Count, hcn]
    congr 1
    omega
  refine ⟨hmain, ?_, ?_, ?_⟩
  · rw [hmain]
    simp only [List.length_drop, RingBuffer.Count, hcn]
    omega
  · simp [RingBuffer.GetLast]
  · intro h0
    rw [hmain, h0]
    simp

theorem ringBuffer_getLast_spec_witness :
    (((NewRingBuffer (0 : Nat) ((3 : Nat) : Int)).pushAll [1, 2, 3, 4]).GetLast 2
      = [1, 2, 3, 4].drop (4 -
          min (Int.toNat 2) ((NewRingBuffer (0 : Nat) ((3 : Nat) : Int)).pushAll
            [1, 2, 3, 4]).Count) ∧
    (((NewRingBuffer (0 : Nat) ((3 : Nat) : Int)).pushAll [1, 2, 3, 4]).GetLast 2).length
      = min (Int.toNat 2) ((NewRingBuffer (0 : Nat) ((3 : Nat) : Int)).pushAll
          [1, 2, 3, 4]).Count ∧
    ((NewRingBuffer (0 : Nat) ((3 : Nat) : Int)).pushAll [1, 2, 3, 4]).GetLast 0 = [] ∧
    (((NewRingBuffer (0 : Nat) ((3 : Nat) : Int)).pushAll [1, 2, 3, 4]).Count = 0 →
      ((NewRingBuffer (0 : Nat) ((3 : Nat) : Int)).pushAll [1, 2, 3, 4]).GetLast 2 = [])) :=
  ringBuffer_getLast_spec (0 : Nat) 3 (by decide) [1, 2, 3, 4] 2

/-- Claim C6: for every capacity `C > 0`, every prior push sequence
`xs`, and every subsequent push sequence `ys`, clearing and then
pushing `ys` is observationally identical (same `Count`, `GetAll`, and
`GetLast k` for every `k`) to pushing `ys` into a freshly constructed
buffer of the same capacity. -/
theorem ringBuffer_clear_fresh_equiv {α : Type} (d : α) (C : Nat) (hC : 0 < C)
    (xs ys : List α) :
    ((((NewRingBuffer d (C : Int)).pushAll xs).Clear).pushAll ys).Count
      = ((NewRingBuffer d (C : Int)).pushAll ys).Count ∧
    ((((NewRingBuffer d (C : Int)).pushAll xs).Clear).pushAll ys).GetAll
      = ((NewRingBuffer d (C : Int)).pushAll ys).GetAll ∧
    ∀ k : Int,
      ((((NewRingBuffer d (C : Int)).pushAll xs).Clear).pushAll ys).GetLast k
        = ((NewRingBuffer d (C : Int)).pushAll ys).GetLast k := by
  have hsz := RingBuffer.new_size_natCast d C hC
  obtain ⟨hsz1, hel1, _, _, _⟩ :=
    RingBuffer.pushAll_spec (NewRingBuffer d (C : Int)) rfl rfl
      (RingBuffer.new_entries_length d _) (RingBuffer.new_size_pos d _) xs
  -- The cleared buffer is an empty-start state of the same capacity.
  have hclr_count : (((NewRingBuffer d (C : Int)).pushAll xs).Clear).count = 0 := rfl
  have hclr_write : (((NewRingBuffer d (C : Int)).pushAll xs).Clear).writeAt = 0 := rfl
  have hclr_size : (((NewRingBuffer d (C : Int)).pushAll xs).Clear).size
      = (NewRingBuffer d (C : Int)).size := hsz1
  have hclr_len : (((NewRingBuffer d (C : Int)).pushAll xs).Clear).entries.length
      = (((NewRingBuffer d (C : Int)).pushAll xs).Clear).size := hel1.trans hsz1.symm
  have hclr_pos : 0 < (((NewRingBuffer d (C : Int)).pushAll xs).Clear).size := by
    rw [hclr_size]; exact RingBuffer.new_size_pos d _
  obtain ⟨csz, cel, ccn, cwr, cga⟩ :=
    RingBuffer.pushAll_spec (((NewRingBuffer d (C : Int)).pushAll xs).Clear)
      hclr_count hclr_write hclr_len hclr_pos ys
  obtain ⟨fsz, fel, fcn, fwr, fga⟩ :=
    RingBuffer.pushAll_spec (NewRingBuffer d (C : Int)) rfl rfl
      (RingBuffer.new_entries_length d _) (RingBuffer.new_size_pos d _) ys
  have hInv1 := RingBuffer.pushAll_inv (((NewRingBuffer d (C : Int)).pushAll xs).Clear)
    hclr_count hclr_write hclr_len hclr_pos ys
  have hInv2 := RingBuffer.pushAll_inv (NewRingBuffer d (C : Int)) rfl rfl
    (RingBuffer.new_entries_length d _) (RingBuffer.new_size_pos d _) ys
  have hcounts :
      ((((NewRingBuffer d (C : Int)).pushAll xs).Clear).pushAll ys).count
        = ((NewRingBuffer d (C : Int)).pushAll ys).count := by
    rw [ccn, fcn, hclr_size]
  have hgas :
      ((((NewRingBuffer d (C : Int)).pushAll xs).Clear).pushAll ys).GetAll
        = ((NewRingBuffer d (C : Int)).pushAll ys).GetAll := by
    rw [cga, fga, hclr_size]
  refine ⟨hcounts, hgas, ?_⟩
  intro k
  rw [RingBuffer.getLast_eq_drop_getAll _ hInv1 k,
    RingBuffer.getLast_eq_drop_getAll _ hInv2 k, hcounts, hgas]

theorem ringBuffer_clear_fresh_equiv_witness :
    ((((NewRingBuffer (0 : Nat) ((3 : Nat) : Int)).pushAll [7, 8, 9, 10]).Clear).pushAll
        [1, 2]).Count
      = ((NewRingBuffer (0 : Nat) ((3 : Nat) : Int)).pushAll [1, 2]).Count ∧
    ((((NewRingBuffer (0 : Nat) ((3 : Nat) : Int)).pushAll [7, 8, 9, 10]).Clear).pushAll
        [1, 2]).GetAll
      = ((NewRingBuffer (0 : Nat) ((3 : Nat) : Int)).pushAll [1, 2]).GetAll ∧
    ∀ k : Int,
      ((((NewRingBuffer (0 : Nat) ((3 : Nat) : Int)).pushAll [7, 8, 9, 10]).Clear).pushAll
          [1, 2]).GetLast k
        = ((NewRingBuffer (0 : Nat) ((3 : Nat) : Int)).pushAll [1, 2]).GetLast k :=
  ringBuffer_clear_fresh_equiv (0 : Nat) 3 (by decide) [7, 8, 9, 10] [1, 2]

/-- Claim C9: `NewRingBuffer` constructs a buffer with exactly the
requested capacity when the requested size is positive, and with the
default capacity 1000 for every non-positive requested size (zero and
negative alike); the backing storage always has exactly that
capacity. -/
theorem newRingBuffer_capacity_spec {α : Type} (d : α) (s : Int) :
    (0 < s → ((NewRingBuffer d s).size : Int) = s) ∧
    (s ≤ 0 → (NewRingBuffer d s).size = 1000) ∧
    (NewRingBuffer d s).entries.length = (NewRingBuffer d s).size := by
  refine ⟨?_, ?_, RingBuffer.new_entries_length d s⟩
  · intro h
    rw [RingBuffer.new_size, if_neg (by omega)]
    omega
  · intro h
    rw [RingBuffer.new_size, if_pos h]

theorem newRingBuffer_capacity_spec_witness :
    ((0 : Int) < 7 → ((NewRingBuffer (0 : Nat) 7).size : Int) = 7) ∧
    ((NewRingBuffer (0 : Nat) (-2)).size = 1000) ∧
    ((NewRingBuffer (0 : Nat) 0).size = 1000) := by
  refine ⟨fun h => (newRingBuffer_capacity_spec (0 : Nat) 7).1 h, ?_, ?_⟩
  · exact (newRingBuffer_capacity_spec (0 : Nat) (-2)).2.1 (by decide)
  · exact (newRingBuffer_capacity_spec (0 : Nat) 0).2.1 (by decide)

/-- Claim C10: after every sequence of `Push`/`Clear` operations on a
constructed ring buffer, `count ≤ capacity` and `writeAt < capacity`
hold (both are nonnegative by the `Nat` model) and the capacity never
changes; moreover once `count` has reached the capacity, every
subsequent `Push` overwrites the slot at the write cursor — which holds
the logically-oldest live entry — while `count` stays at the
capacity. -/
theorem ringBuffer_invariant_overwrite {α : Type} (d : α) (s : Int)
    (ops : List (RBOp α)) (x : α) :
    ((NewRingBuffer d s).applyOps ops).count ≤ ((NewRingBuffer d s).applyOps ops).size ∧
    ((NewRingBuffer d s).applyOps ops).writeAt < ((NewRingBuffer d s).applyOps ops).size ∧
    ((NewRingBuffer d s).applyOps ops).size = (NewRingBuffer d s).size ∧
    (((NewRingBuffer d s).applyOps ops).count = ((NewRingBuffer d s).applyOps ops).size →
      (((NewRingBuffer d s).applyOps ops).Push x).count
        = ((NewRingBuffer d s).applyOps ops).size ∧
      (((NewRingBuffer d s).applyOps ops).Push x).entries
        = ((NewRingBuffer d s).applyOps ops).entries.set
            ((NewRingBuffer d s).applyOps ops).writeAt x ∧
      ((NewRingBuffer d s).applyOps ops).GetAll.head?
        = ((NewRingBuffer d s).applyOps ops).entries[((NewRingBuffer d s).applyOps
            ops).writeAt]?) := by
  have hInv := RingBuffer.inv_applyOps (NewRingBuffer d s) (RingBuffer.inv_new d s) ops
  obtain ⟨hl, hs, hc, hw, hcw⟩ := hInv
  refine ⟨hc, hw, RingBuffer.size_applyOps _ ops, ?_⟩
  intro hful
  refine ⟨?_, rfl, ?_⟩
  · simp only [RingBuffer.push_count]
    rw [if_neg (by omega)]
    exact hful
  · exact RingBuffer.getAll_head_full _ ⟨hl, hs, hc, hw, hcw⟩ hful

theorem ringBuffer_invariant_overwrite_witness :
    (((NewRingBuffer (0 : Nat) 2).applyOps [RBOp.push 1, RBOp.push 2]).count
        ≤ ((NewRingBuffer (0 : Nat) 2).applyOps [RBOp.push 1, RBOp.push 2]).size ∧
      ((NewRingBuffer (0 : Nat) 2).applyOps [RBOp.push 1, RBOp.push 2]).writeAt
        < ((NewRingBuffer (0 : Nat) 2).applyOps [RBOp.push 1, RBOp.push 2]).size) ∧
    (((NewRingBuffer (0 : Nat) 2).applyOps [RBOp.push 1, RBOp.push 2]).Push 9).count
      = ((NewRingBuffer (0 : Nat) 2).applyOps [RBOp.push 1, RBOp.push 2]).size ∧
    ((NewRingBuffer (0 : Nat) 2).applyOps [RBOp.push 1, RBOp.push 2]).GetAll.head?
      = ((NewRingBuffer (0 : Nat) 2).applyOps
          [RBOp.push 1, RBOp.push 2]).entries[((NewRingBuffer (0 : Nat) 2).applyOps
          [RBOp.push 1, RBOp.push 2]).writeAt]? := by
  have h := ringBuffer_invariant_overwrite (0 : Nat) 2 [RBOp.push 1, RBOp.push 2] 9
  have hful : ((NewRingBuffer (0 : Nat) 2).applyOps [RBOp.push 1, RBOp.push 2]).count
      = ((NewRingBuffer (0 : Nat) 2).applyOps [RBOp.push 1, RBOp.push 2]).size := by decide
  exact ⟨⟨h.1, h.2.1⟩, (h.2.2.2 hful).1, (h.2.2.2 hful).2.2⟩

/-!
## Severity levels and their derivation

From `internal/ingest`: the `LogLevel` enumeration, the journald
priority table `priorityToLevel` (`journal.go`), and the keyword
scanner `detectLevel` of the file ingestor.
-/

/-- `LogLevel` from `internal/ingest`: the severity of a log entry, in
the declared (iota) order. -/
inductive LogLevel where
  | LevelUnknown
  | LevelDebug
  | LevelInfo
  | LevelNotice
  | LevelWarning
  | LevelError
  | LevelCritical
  | LevelAlert
  | LevelEmergency
  deriving Repr, DecidableEq

/-- `priorityToLevel` from `journal.go`: converts a syslog priority
(0 = emergency … 7 = debug) to a `LogLevel`; anything else maps to
`LevelUnknown`.  Go's `switch` on an `int` is an equality chain. -/
def priorityToLevel (priority : Int) : LogLevel :=
  if priority = 0 then .LevelEmergency
  else if priority = 1 then .LevelAlert
  else if priority = 2 then .LevelCritical
  else if priority = 3 then .LevelError
  else if priority = 4 then .LevelWarning
  else if priority = 5 then .LevelNotice
  else if priority = 6 then .LevelInfo
  else if priority = 7 then .LevelDebug
  else .LevelUnknown

/-- The priority-field handling of `parseJournalEntry` (`journal.go`):
the level defaults to `LevelUnknown` and `priorityToLevel` is consulted
only when the `PRIORITY` field is present and `strconv.Atoi` succeeds
on it.  An absent or non-numeric field is modelled as `none`. -/
def journalLevel (priorityField : Option Int) : LogLevel :=
  match priorityField with
  | none => LogLevel.LevelUnknown
  | some p => priorityToLevel p

/-- Claim C4: the journal priority-to-severity mapping is the fixed
table 0 ↦ emergency, 1 ↦ alert, 2 ↦ critical, 3 ↦ error, 4 ↦ warning,
5 ↦ notice, 6 ↦ info, 7 ↦ debug; every other integer input maps to
unknown, and an absent or non-numeric priority field yields unknown. -/
theorem priorityToLevel_table :
    (priorityToLevel 0 = .LevelEmergency ∧ priorityToLevel 1 = .LevelAlert ∧
     priorityToLevel 2 = .LevelCritical ∧ priorityToLevel 3 = .LevelError ∧
     priorityToLevel 4 = .LevelWarning ∧ priorityToLevel 5 = .LevelNotice ∧
     priorityToLevel 6 = .LevelInfo ∧ priorityToLevel 7 = .LevelDebug) ∧
    (∀ p : Int, p < 0 ∨ 7 < p → priorityToLevel p = .LevelUnknown) ∧
    journalLevel none = .LevelUnknown ∧
    (∀ p : Int, journalLevel (some p) = priorityToLevel p) := by
  refine ⟨by decide, ?_, rfl, fun p => rfl⟩
  intro p hp
  unfold priorityToLevel
  repeat rw [if_neg (by omega)]

theorem priorityToLevel_table_witness :
    priorityToLevel 0 = .LevelEmergency ∧ priorityToLevel 7 = .LevelDebug ∧
    priorityToLevel 8 = .LevelUnknown ∧ priorityToLevel (-1) = .LevelUnknown ∧
    journalLevel none = .LevelUnknown := by
  obtain ⟨⟨t0, _, _, _, _, _, _, t7⟩, hdefault, habsent, _⟩ := priorityToLevel_table
  exact ⟨t0, t7, hdefault 8 (by decide), hdefault (-1) (by decide), habsent⟩

/-- Go `strings.Contains(s, substr)` on rune lists: `substr` occurs as
a contiguous substring of `s` (the empty string is contained in
everything). -/
def containsSub : List Char → List Char → Bool
  | [], sub => sub.isEmpty
  | c :: t, sub => sub.isPrefixOf (c :: t) || containsSub t sub

/-- Go `strings.ToUpper` restricted to ASCII (all severity keywords are
ASCII, and `Char.toUpper` agrees with Go on ASCII input). -/
def goToUpper (s : String) : List Char :=
  s.data.map Char.toUpper

/-- `detectLevel` from the file ingestor (`internal/ingest`): uppercase
the line, then check severity keywords in order of decreasing severity
and return the first match, or `LevelUnknown` if none matches. -/
def detectLevel (line : String) : LogLevel :=
  let upper := goToUpper line
  if containsSub upper "EMERG".data || containsSub upper "EMERGENCY".data then .LevelEmergency
  else if containsSub upper "ALERT".data then .LevelAlert
  else if containsSub upper "CRIT".data || containsSub upper "CRITICAL".data then .LevelCritical
  else if containsSub upper "ERROR".data || containsSub upper "ERR".data then .LevelError
  else if containsSub upper "WARN".data || containsSub upper "WARNING".data then .LevelWarning
  else if containsSub upper "NOTICE".data then .LevelNotice
  else if containsSub upper "INFO".data then .LevelInfo
  else if containsSub upper "DEBUG".data || containsSub upper "TRACE".data then .LevelDebug
  else .LevelUnknown

/-- The spec's keyword table, written from the spec's words: the
keywords associated with each severity, in the spec's order
(emergency/emerg, alert, critical/crit, error/err, warning/warn,
notice, info, debug/trace). -/
def specSeverityKeywords : LogLevel → List String
  | .LevelEmergency => ["EMERGENCY", "EMERG"]
  | .LevelAlert => ["ALERT"]
  | .LevelCritical => ["CRITICAL", "CRIT"]
  | .LevelError => ["ERROR", "ERR"]
  | .LevelWarning => ["WARNING", "WARN"]
  | .LevelNotice => ["NOTICE"]
  | .LevelInfo => ["INFO"]
  | .LevelDebug => ["DEBUG", "TRACE"]
  | .LevelUnknown => []

/-- The spec's strict descending-severity scan order. -/
def specSeverityOrder : List LogLevel :=
  [.LevelEmergency, .LevelAlert, .LevelCritical, .LevelError,
   .LevelWarning, .LevelNotice, .LevelInfo, .LevelDebug]

/-- The first severity in the given scan order one of whose keywords
occurs in the uppercased line; unknown if none matches. -/
def firstMatch (upper : List Char) : List LogLevel → LogLevel
  | [] => .LevelUnknown
  | l :: rest =>
    if (specSeverityKeywords l).any (fun kw => containsSub upper kw.data) then l
    else firstMatch upper rest

/-- Keyword severity detection as the spec words it: scan the
uppercased line for the severities in strict descending order and
assign the first one with a matching keyword; unknown if none. -/
def detectLevelSpec (line : String) : LogLevel :=
  firstMatch (goToUpper line) specSeverityOrder

set_option maxRecDepth 4000 in
/-- Claim C5: keyword severity detection scans the line
case-insensitively and assigns the first matching keyword in strict
descending-severity order (emergency/emerg, alert, critical/crit,
error/err, warning/warn, notice, info, debug/trace): `detectLevel`
coincides with the severity scan written from the spec's words;
a line containing both "error" and "debug" is classified error, and a
line containing none of the keywords is classified unknown. -/
theorem detectLevel_keyword_order :
    (∀ line : String, detectLevel line = detectLevelSpec line) ∧
    detectLevel "an error while reading debug output" = .LevelError ∧
    detectLevel "all quiet today" = .LevelUnknown := by
  refine ⟨?_, by decide, by decide⟩
  intro line
  simp only [detectLevel, detectLevelSpec, firstMatch, specSeverityOrder,
    specSeverityKeywords, List.any_cons, List.any_nil, Bool.or_false]
  rw [Bool.or_comm (containsSub (goToUpper line) ['E', 'M', 'E', 'R', 'G', 'E', 'N', 'C', 'Y'])
      (containsSub (goToUpper line) ['E', 'M', 'E', 'R', 'G']),
    Bool.or_comm (containsSub (goToUpper line) ['C', 'R', 'I', 'T', 'I', 'C', 'A', 'L'])
      (containsSub (goToUpper line) ['C', 'R', 'I', 'T']),
    Bool.or_comm (containsSub (goToUpper line) ['W', 'A', 'R', 'N', 'I', 'N', 'G'])
      (containsSub (goToUpper line) ['W', 'A', 'R', 'N'])]

/-!
## The aggregator: source registry and broadcast

From `internal/aggregate/aggregator.go`: `AddSource`, `RemoveSource`,
`broadcast`, and one iteration of `aggregationLoop`.  An ingestor is
abstracted to what the aggregator observes through the `Ingestor`
interface: its name and the outcomes of `Start` and `Stop` (a Go
`error`, `none` meaning `nil`).  The Go `map[string]ingest.Ingestor` is
modelled as an association list with Go map semantics (at most one
binding per key). -/

/-- An ingestor as the aggregator sees it: `Name()`, and the outcomes
of `Start` (`none` = started fine) and `Stop`. -/
structure Ingestor where
  name : String
  startErr : Option String
  stopErr : Option String
  deriving Repr, DecidableEq

/-- Go map read `m[k]` (the `v, ok := m[k]` form). -/
def lookupSource : List (String × Ingestor) → String → Option Ingestor
  | [], _ => none
  | (k', v) :: rest, k => if k' = k then some v else lookupSource rest k

/-- Go map write `m[k] = v`: replace the binding if present, else add
it. -/
def setSource : List (String × Ingestor) → String → Ingestor → List (String × Ingestor)
  | [], k, v => [(k, v)]
  | (k', v') :: rest, k, v =>
    if k' = k then (k, v) :: rest else (k', v') :: setSource rest k v

/-- Go `delete(m, k)`. -/
def delSource : List (String × Ingestor) → String → List (String × Ingestor)
  | [], _ => []
  | (k', v') :: rest, k => if k' = k then rest else (k', v') :: delSource rest k

/-- The aggregator state relevant to source management: the `sources`
registry. -/
structure Aggregator where
  sources : List (String × Ingestor)
  deriving Repr, DecidableEq

/-- `AddSource` from `aggregator.go`: registers the source under its
name in the `sources` map, then starts the ingestor and returns the
outcome of `Start` to the caller.  Nothing removes the registration
when `Start` fails. -/
def Aggregator.AddSource (a : Aggregator) (source : Ingestor) :
    Aggregator × Option String :=
  ({ sources := setSource a.sources source.name source }, source.startErr)

/-- `RemoveSource` from `aggregator.go`: an absent name returns `nil`
with nothing to do; otherwise the registration is deleted and the
ingestor's `Stop` outcome is returned. -/
def Aggregator.RemoveSource (a : Aggregator) (name : String) :
    Aggregator × Option String :=
  match lookupSource a.sources name with
  | none => (a, none)
  | some source => ({ sources := delSource a.sources name }, source.stopErr)

lemma lookupSource_setSource (m : List (String × Ingestor)) (k : String) (v : Ingestor) :
    lookupSource (setSource m k v) k = some v := by
  induction m with
  | nil => simp [setSource, lookupSource]
  | cons p rest IH =>
    obtain ⟨k', v'⟩ := p
    by_cases h : k' = k <;> simp [setSource, lookupSource, h, IH]

/-- Claim C1 (counterexample): starting from an empty registry, adding
an ingestor whose `Start` fails does propagate the error, but the
source IS present in the registry afterwards — the claim's "the source
is not present in the aggregator's source registry afterwards (the
registry is unchanged)" is false on the code. -/
theorem addSource_startError_cex :
    (Aggregator.AddSource ⟨[]⟩ ⟨"journald", some "spawn failed", none⟩).2
        = some "spawn failed" ∧
    ¬ (lookupSource
        (Aggregator.AddSource ⟨[]⟩ ⟨"journald", some "spawn failed", none⟩).1.sources
        "journald" = none) ∧
    ¬ ((Aggregator.AddSource ⟨[]⟩ ⟨"journald", some "spawn failed", none⟩).1.sources
        = ([] : List (String × Ingestor))) := by
  refine ⟨rfl, ?_, ?_⟩ <;> decide

/-- Claim C1 (amended): for every ingestor whose start operation
returns an error, `AddSource` returns that error to the caller, but the
source has already been registered and remains in the registry after
the failed call (it is registered before `Start` is attempted and is
not removed on failure). -/
theorem addSource_startError_registered (a : Aggregator) (src : Ingestor) (e : String)
    (h : src.startErr = some e) :
    (a.AddSource src).2 = some e ∧
    lookupSource (a.AddSource src).1.sources src.name = some src := by
  refine ⟨?_, ?_⟩
  · simp [Aggregator.AddSource, h]
  · simp only [Aggregator.AddSource]
    exact lookupSource_setSource a.sources src.name src

theorem addSource_startError_registered_witness :
    (Aggregator.AddSource ⟨[]⟩ ⟨"journald", some "spawn failed", none⟩).2
        = some "spawn failed" ∧
    lookupSource
        (Aggregator.AddSource ⟨[]⟩ ⟨"journald", some "spawn failed", none⟩).1.sources
        "journald"
      = some ⟨"journald", some "spawn failed", none⟩ :=
  addSource_startError_registered ⟨[]⟩ ⟨"journald", some "spawn failed", none⟩
    "spawn failed" rfl

/-- Claim C8: for every name not registered in the source registry,
`RemoveSource` returns without error (`nil`) and leaves the whole
aggregator state — in particular the source registry — unchanged. -/
theorem removeSource_absent (a : Aggregator) (name : String)
    (h : lookupSource a.sources name = none) :
    a.RemoveSource name = (a, none) := by
  simp [Aggregator.RemoveSource, h]

theorem removeSource_absent_witness :
    Aggregator.RemoveSource
        ⟨[("syslog", ⟨"syslog", none, none⟩)]⟩ "journald"
      = (⟨[("syslog", ⟨"syslog", none, none⟩)]⟩, none) :=
  removeSource_absent ⟨[("syslog", ⟨"syslog", none, none⟩)]⟩ "journald" (by decide)

/-!
### Broadcast
-/

/-- A subscriber (`aggregator.go`): its buffered channel is modelled by
the queued contents plus the channel capacity, together with the
`closed` flag. -/
structure Subscriber (α : Type) where
  id : String
  queue : List α
  capacity : Nat
  closed : Bool
  deriving Repr, DecidableEq

/-- The per-subscriber body of `broadcast`: skip a closed subscriber;
otherwise attempt the non-blocking send (`select` with `default`):
enqueue when the channel has free space, silently drop the entry when
it is full. -/
def trySend {α : Type} (s : Subscriber α) (entry : α) : Subscriber α :=
  if s.closed then s
  else if s.queue.length < s.capacity then { s with queue := s.queue ++ [entry] }
  else s

/-- `broadcast` from `aggregator.go`: attempt the non-blocking send on
every subscriber in turn. -/
def broadcast {α : Type} (subs : List (Subscriber α)) (entry : α) : List (Subscriber α) :=
  subs.map (fun s => trySend s entry)

/-- One iteration of `aggregationLoop` (`aggregator.go`): push the
entry into the history ring buffer, then broadcast it to the
subscribers. -/
def aggregationStep {α : Type} (hist : RingBuffer α) (subs : List (Subscriber α))
    (entry : α) : RingBuffer α × List (Subscriber α) :=
  (hist.Push entry, broadcast subs entry)

/-- Claim C7: for every broadcast of an event: the subscriber set keeps
its shape, the result for subscriber `i` depends only on subscriber `i`
itself (one subscriber's full queue cannot affect any other), an open
subscriber with free queue space receives the event at the back of its
queue, a subscriber with a full queue has the event dropped for it
alone (its state is unchanged), and the ring-buffer push of the same
loop iteration is `Push entry` regardless of the subscriber states. -/
theorem broadcast_drop_policy {α : Type} (hist : RingBuffer α)
    (subs : List (Subscriber α)) (entry : α) :
    (broadcast subs entry).length = subs.length ∧
    (∀ i : Nat, (broadcast subs entry)[i]? = (subs[i]?).map (fun s => trySend s entry)) ∧
    (∀ s : Subscriber α, ¬ s.closed = true → s.queue.length < s.capacity →
      trySend s entry = { s with queue := s.queue ++ [entry] }) ∧
    (∀ s : Subscriber α, s.capacity ≤ s.queue.length → trySend s entry = s) ∧
    (aggregationStep hist subs entry).1 = hist.Push entry ∧
    (aggregationStep hist subs entry).2 = broadcast subs entry := by
  refine ⟨List.length_map _ _, ?_, ?_, ?_, rfl, rfl⟩
  · intro i
    exact List.getElem?_map _ subs i
  · intro s hclosed hroom
    simp [trySend, hclosed, hroom]
  · intro s hfull
    by_cases hclosed : s.closed
    · simp [trySend, hclosed]
    · simp [trySend, hclosed]
      omega

theorem broadcast_drop_policy_witness :
    (broadcast [⟨"a", [1, 2], 2, false⟩, ⟨"b", [], 2, false⟩] (9 : Nat)).length = 2 ∧
    trySend (⟨"b", [], 2, false⟩ : Subscriber Nat) 9 = ⟨"b", [9], 2, false⟩ ∧
    trySend (⟨"a", [1, 2], 2, false⟩ : Subscriber Nat) 9 = ⟨"a", [1, 2], 2, false⟩ ∧
    (aggregationStep (NewRingBuffer 0 3)
        [⟨"a", [1, 2], 2, false⟩, ⟨"b", [], 2, false⟩] (9 : Nat)).1
      = (NewRingBuffer 0 3).Push 9 := by
  have h := broadcast_drop_policy (NewRingBuffer (0 : Nat) 3)
    [⟨"a", [1, 2], 2, false⟩, ⟨"b", [], 2, false⟩] (9 : Nat)
  refine ⟨h.1, ?_, ?_, h.2.2.2.2.1⟩
  · have := h.2.2.1 ⟨"b", [], 2, false⟩ (by decide) (by decide)
    simpa using this
  · exact h.2.2.2.1 ⟨"a", [1, 2], 2, false⟩ (by decide)

end Argus
